import Mathlib

/-!
Verification development for the augmented-rpc middleware (app.js / the
DB-capable variant).  The JS source is shallowly embedded: JSON values are an
inductive type (numbers modelled as integers, strings as unicode-scalar
sequences), `JSON.stringify` is modelled character-for-character including its
escape table, maps (`cache`, `duplicateDetector`, the sqlite table) are
association lists, timestamps are integers passed explicitly for each
`Date.now()` call, and `Math.random()` is an explicit rational parameter.
Fallible JS evaluation (TypeError on property access of `undefined`/`null`,
the `forwardErr` reference error) is modelled with `Except`/explicit error
constructors.
-/

/-- JSON values as handled by the middleware.  `null` and JS `undefined` are
distinguished at use sites by wrapping in `Option` (`none` = `undefined`).
Numbers are modelled as integers (the RPC traffic uses integral ids; float
formatting is irrelevant to every claim). -/
inductive Json where
  | null : Json
  | bool : Bool → Json
  | num : Int → Json
  | str : String → Json
  | arr : List Json → Json
  | obj : List (String × Json) → Json

/-- Decimal digit character, for rendering integers the way `JSON.stringify`
prints integral numbers. -/
def digCh : Nat → Char
  | 0 => '0' | 1 => '1' | 2 => '2' | 3 => '3' | 4 => '4'
  | 5 => '5' | 6 => '6' | 7 => '7' | 8 => '8' | 9 => '9'
  | _ => '*'

/-- Lower-case hex digit character, used by the `\u00XX` escapes of
`JSON.stringify`. -/
def hexCh : Nat → Char
  | 0 => '0' | 1 => '1' | 2 => '2' | 3 => '3' | 4 => '4'
  | 5 => '5' | 6 => '6' | 7 => '7' | 8 => '8' | 9 => '9'
  | 10 => 'a' | 11 => 'b' | 12 => 'c' | 13 => 'd' | 14 => 'e' | 15 => 'f'
  | _ => '*'

/-- Decimal digits of a positive natural, most significant first. -/
def natChars (n : Nat) : List Char := ((Nat.digits 10 n).map digCh).reverse

/-- Decimal rendering of a natural number (`(0).toString() = "0"`). -/
def natRepr (n : Nat) : List Char := if n = 0 then ['0'] else natChars n

/-- Decimal rendering of an integer, as `JSON.stringify` prints integral
numbers. -/
def intRepr (n : Int) : List Char :=
  if n < 0 then '-' :: natRepr n.natAbs else natRepr n.toNat

/-- The escape table of `JSON.stringify` (ECMA-262 QuoteJSONString) for
unicode scalar values: `"` and `\` get two-character escapes, the five named
control characters get short escapes, remaining control characters get
`\u00XX`, anything else is emitted verbatim. -/
def escChar (c : Char) : List Char :=
  if c = '"' then ['\\', '"']
  else if c = '\\' then ['\\', '\\']
  else if c.toNat < 32 then
    if c.toNat = 8 then ['\\', 'b']
    else if c.toNat = 9 then ['\\', 't']
    else if c.toNat = 10 then ['\\', 'n']
    else if c.toNat = 12 then ['\\', 'f']
    else if c.toNat = 13 then ['\\', 'r']
    else ['\\', 'u', '0', '0', hexCh (c.toNat / 16), hexCh (c.toNat % 16)]
  else [c]

/-- Escape every character of a string body. -/
def escList : List Char → List Char
  | [] => []
  | c :: cs => escChar c ++ escList cs

mutual
/-- Character-level model of `JSON.stringify` (no spacing, insertion-ordered
object keys), as used by `getCacheKey` and the sqlite write path. -/
def strL : Json → List Char
  | .null => ['n', 'u', 'l', 'l']
  | .bool b => if b then ['t', 'r', 'u', 'e'] else ['f', 'a', 'l', 's', 'e']
  | .num n => intRepr n
  | .str s => '"' :: (escList s.data ++ ['"'])
  | .arr xs => '[' :: (strLList xs ++ [']'])
  | .obj fs => '\x7b' :: (strLFields fs ++ ['\x7d'])

/-- Comma-separated serialization of array elements. -/
def strLList : List Json → List Char
  | [] => []
  | [x] => strL x
  | x :: y :: t => strL x ++ ',' :: strLList (y :: t)

/-- Comma-separated serialization of object fields. -/
def strLFields : List (String × Json) → List Char
  | [] => []
  | [f] => strLField f
  | f :: g :: t => strLField f ++ ',' :: strLFields (g :: t)

/-- One object field: quoted key, colon, value. -/
def strLField : String × Json → List Char
  | (k, v) => '"' :: (escList k.data ++ '"' :: ':' :: strL v)
end

/-- String-valued `JSON.stringify`. -/
def stringify (v : Json) : String := String.mk (strL v)

/-- Cache key as computed by `getCacheKey`:
`` `${req.body.method}${JSON.stringify(req.body.params)}` ``. -/
def getCacheKey (method : String) (params : Json) : String :=
  method ++ stringify params

/-- Association list with string keys, modelling a JS `Map` (and the sqlite
`data` table).  Insertion order is irrelevant to every claim. -/
def SMap (β : Type) : Type := List (String × β)

/-- `Map.get` (or `SELECT` by primary key): the value stored under `k`, if
any.  `Map.has` is `(aget m k).isSome`. -/
def aget {β : Type} : SMap β → String → Option β
  | [], _ => none
  | (k', v) :: t, k => if k' = k then some v else aget t k

/-- `Map.set` (or `INSERT OR REPLACE`): overwrite the entry under `k`. -/
def aset {β : Type} : SMap β → String → β → SMap β
  | [], k, v => [(k, v)]
  | (k', v') :: t, k, v => if k' = k then (k, v) :: t else (k', v') :: aset t k v

/-- One cache entry: `{ ts, val, readCnt, writeCnt }`.  `val` is `Option Json`
because `rpcRes.data.result` can be JS `undefined` (`none`) as well as JSON
`null` (`some .null`). -/
structure Entry where
  val : Option Json
  ts : Int
  readCnt : Nat
  writeCnt : Nat

/-- The in-memory `cache` map. -/
def Cache : Type := SMap Entry

/-- One row of the sqlite `data` table: `val TEXT` (nullable: binding JS
`undefined` stores NULL), `ts INTEGER`. -/
structure DbRow where
  val : Option String
  ts : Int

/-- The `maxAgeMs` argument: a finite number of milliseconds or JS
`Infinity`. -/
inductive MaxAge where
  | fin : Int → MaxAge
  | inf : MaxAge
deriving DecidableEq

/-- The freshness comparison `Date.now() - entry.ts <= maxAgeMs` (trivially
true against `Infinity`). -/
def ageOk (age : Int) : MaxAge → Bool
  | .fin m => age ≤ m
  | .inf => true

/-- The JSON-RPC envelope built for a cache hit:
`{ jsonrpc: "2.0", id: reqId, result: val }`. -/
structure RpcResp where
  jsonrpc : String
  id : Json
  result : Json

/-- The `try` block of the durable-store branch of `getResponseFromCache`
(DB-variant lines 103–114): resolve `getFromDb(key)`; if a row came back, run
the freshness test — which reads `cache.get(key).ts`, a TypeError whenever the
key is absent from the in-memory map — and on success `JSON.parse` the stored
text (`JSON.parse(null)` coerces NULL to the string "null", yielding JSON
null).  `jsonParse` is the JSON.parse collaborator, passed in abstractly. -/
def dbTryBlock (jsonParse : String → Option Json) (dbs : SMap DbRow)
    (c : Cache) (key : String) (maxAgeMs : MaxAge) (now : Int) :
    Except String (Option Json) :=
  match aget dbs key with
  | some row =>
    match aget c key with
    | none => .error "TypeError: cannot read property ts of undefined"
    | some e =>
      if ageOk (now - e.ts) maxAgeMs then
        match row.val with
        | some s =>
          match jsonParse s with
          | some v => .ok (some v)
          | none => .error "SyntaxError: JSON.parse failed"
        | none => .ok (some Json.null)
      else .ok none
  | none => .ok none

/-- `getResponseFromCache` of the DB-capable variant (lines 92–128): probe the
in-memory map first (bumping `readCnt` on a fresh entry, before any null
check), otherwise fall back to the durable store with local error recovery,
and only wrap a result envelope when the value is neither `undefined` nor
`null`.  Returns the optional response and the updated in-memory map. -/
def getResponseFromCache (dbActive : Bool) (jsonParse : String → Option Json)
    (dbs : SMap DbRow) (c : Cache) (key : String) (maxAgeMs : MaxAge)
    (reqId : Json) (now : Int) : Option RpcResp × Cache :=
  let (val, c') :=
    match aget c key with
    | some e =>
      if ageOk (now - e.ts) maxAgeMs then
        (e.val, aset c key { e with readCnt := e.readCnt + 1 })
      else (none, c)
    | none =>
      if dbActive then
        match dbTryBlock jsonParse dbs c key maxAgeMs now with
        | .ok v => (v, c)
        | .error _ => (none, c)
      else (none, c)
  match val with
  | some Json.null => (none, c')
  | some v => (some ⟨"2.0", reqId, v⟩, c')
  | none => (none, c')

/-- `writeResponseToCache` (DB-variant lines 130–146): build the replacement
entry (carrying over `readCnt`, bumping `writeCnt`), then either `INSERT OR
REPLACE` its value and timestamp into the durable store (leaving the in-memory
map untouched) or `Map.set` it into the in-memory map.  Returns the updated
durable store and in-memory map. -/
def writeResponseToCache (dbActive : Bool) (dbs : SMap DbRow) (c : Cache)
    (key : String) (val : Option Json) (now : Int) : SMap DbRow × Cache :=
  let newValue : Entry :=
    { val := val
      ts := now
      readCnt := match aget c key with | some e => e.readCnt | none => 0
      writeCnt := match aget c key with | some e => e.writeCnt + 1 | none => 1 }
  if dbActive then (aset dbs key ⟨newValue.val.map stringify, newValue.ts⟩, c)
  else (dbs, aset c key newValue)

namespace AppJs

/-- The cache-hit envelope of the in-memory-only variant (app.js):
`result` is the stored value verbatim, so it can be `undefined` or `null`. -/
structure Resp where
  jsonrpc : String
  id : Json
  result : Option Json

/-- `getResponseFromCache` of app.js (lines 79–94): a present and fresh entry
is always wrapped into a response envelope — the stored value is not checked
against `null`/`undefined`. -/
def getResponseFromCache (c : Cache) (key : String) (maxAgeMs : MaxAge)
    (reqId : Json) (now : Int) : Option Resp × Cache :=
  match aget c key with
  | some e =>
    if ageOk (now - e.ts) maxAgeMs then
      (some ⟨"2.0", reqId, e.val⟩, aset c key { e with readCnt := e.readCnt + 1 })
    else (none, c)
  | none => (none, c)

end AppJs

/-- The `duplicateDetector` map: cache key ↦ timestamp of the last sighting. -/
def Dedup : Type := SMap Int

/-- The randomized duplicate delay
`DUPLICATE_MIN_DELAY_MS + Math.floor(Math.random() * DUPLICATE_RANDOM_MAX_EXTRA_DELAY_MS)`
for a draw `r` of `Math.random()`. -/
def duplicateDelayMs (r : ℚ) : Int := 500 + ⌊r * 1000⌋

/-- The delay decided by the duplicate-suppression preamble (lines 176–185):
a present record younger than `DUPLICATE_DELAY_TRIGGER_THRESHOLD_MS = 1000`
triggers the randomized delay, anything else means no suspension. -/
def dedupDelay (dd : Dedup) (key : String) (now : Int) (r : ℚ) : Int :=
  match aget dd key with
  | some prevCallTs => if now - prevCallTs < 1000 then duplicateDelayMs r else 0
  | none => 0

/-- Observable events of one request's duplicate-suppression preamble, in
execution order. -/
inductive Ev where
  | delay : Int → Ev
  | dedupSet : Int → Ev
deriving DecidableEq

/-- The duplicate-suppression preamble (lines 176–186) as an ordered event
trace plus the updated detector map: an optional `await`ed delay first, then
`duplicateDetector.set(cacheKey, Date.now())` — `tSet` being the value of that
second `Date.now()` call, i.e. the time after any delay has elapsed. -/
def dedupStep (dd : Dedup) (key : String) (now : Int) (tSet : Int) (r : ℚ) :
    Dedup × List Ev :=
  let evs :=
    match aget dd key with
    | some prevCallTs =>
      if now - prevCallTs < 1000 then [Ev.delay (duplicateDelayMs r)] else []
    | none => []
  (aset dd key tSet, evs ++ [Ev.dedupSet tSet])

/-- Per-method `maxAgeMs` selection of the DB-capable variant (line 189):
`Infinity` for the three listed methods, `CACHE_MAX_AGE * 1000` for everything
else (`eth_call` included). -/
def cacheMaxAgeMs (method : String) (cacheMaxAge : Nat) : MaxAge :=
  if method ∈ ["eth_chainId", "net_version", "eth_getTransactionReceipt"]
  then .inf else .fin (cacheMaxAge * 1000)

/-- `params.some(param => typeof param === 'object' && 'blockHash' in param)`:
`typeof` is `'object'` exactly for objects, arrays and `null`, and the `in`
operator throws a TypeError on `null`. -/
def someBlockHash : List Json → Except String Bool
  | [] => .ok false
  | p :: t =>
    match p with
    | .null => .error "TypeError: cannot use in operator on null"
    | .obj fs => if fs.any (fun f => f.1 = "blockHash") then .ok true else someBlockHash t
    | .arr _ => someBlockHash t
    | _ => someBlockHash t

/-- The cache-write predicate of the DB-capable variant (lines 206–209): the
three always-immutable methods, or `eth_call` whose params array contains an
object with a `blockHash` key.  `eth_call` with non-array params makes
`params.some` throw. -/
def shouldWriteCache (method : String) (params : Json) : Except String Bool :=
  if method ∈ ["eth_chainId", "eth_blockNumber", "net_version"] then .ok true
  else if method = "eth_call" then
    match params with
    | .arr xs => someBlockHash xs
    | _ => .error "TypeError: params.some is not a function"
  else .ok false

/-- Upstream failure classification of `upstreamHttpRequest`'s catch block:
`err.response` present (its serialization), else `err.request` present (the
serialization of `err.request.data`, possibly `undefined`), else neither. -/
inductive UpErr where
  | response : String → UpErr
  | request : Option String → UpErr
  | other : UpErr
deriving DecidableEq

/-- Outcome of one `axios.post` attempt. -/
inductive Outcome where
  | success : Json → Outcome
  | failure : UpErr → Outcome

/-- The `forwardedErr` computed by the catch block: initialized to
"unspecified" and overwritten by the serialized failure when one is
classifiable (possibly to `undefined`). -/
def forwardedErrOf : UpErr → Option String
  | .response body => some body
  | .request d => d
  | .other => some "unspecified"

/-- Values a caller of `upstreamHttpRequest` can catch.  `referenceError` is
what evaluating the undeclared identifier in `throw Error(forwardErr)`
actually produces; `errorObj` is what `throw Error(forwardedErr)` would have
produced. -/
inductive JsErr where
  | referenceError : String → JsErr
  | errorObj : Option String → JsErr
deriving DecidableEq

/-- `upstreamHttpRequest(rpc, reqBody, nrRetries, initialTimeoutMs)` (lines
226–250), with the sequence of `axios.post` outcomes supplied by `attempts`
(indexed from `i`).  Returns the list of backoff sleeps performed, in order,
and the final result.  On a success the response is returned; on a failure
with retries left the code sleeps `initialTimeoutMs` and recurses with the
timeout doubled; with no retries left it executes `throw Error(forwardErr)` —
`forwardErr` is undeclared (the computed variable is `forwardedErr`), so a
ReferenceError is thrown. -/
def upstreamHttpRequest (attempts : Nat → Outcome) (i : Nat) (nrRetries : Nat)
    (initialTimeoutMs : Int) : List Int × Except JsErr Json :=
  match attempts i with
  | .success data => ([], .ok data)
  | .failure _ =>
    match nrRetries with
    | n + 1 =>
      let rest := upstreamHttpRequest attempts (i + 1) n (initialTimeoutMs * 2)
      (initialTimeoutMs :: rest.1, rest.2)
    | 0 => ([], .error (.referenceError "forwardErr is not defined"))

/-- Number of `axios.post` calls `upstreamHttpRequest` performs. -/
def upstreamAttempts (attempts : Nat → Outcome) (i : Nat) (nrRetries : Nat) : Nat :=
  match attempts i with
  | .success _ => 1
  | .failure _ =>
    match nrRetries with
    | n + 1 => 1 + upstreamAttempts attempts (i + 1) n
    | 0 => 1

/-- Property access `data.result` (JS member access on a JSON value):
TypeError on `null`, the field (or `undefined`) on an object, `undefined` on
every other primitive/array. -/
def jsGetField (v : Json) (name : String) : Except String (Option Json) :=
  match v with
  | .null => .error "TypeError: cannot read properties of null"
  | .obj fs =>
    match fs.find? (fun f => f.1 = name) with
    | some f => .ok (some f.2)
    | none => .ok none
  | _ => .ok none

/-- The JSON-RPC request body `{jsonrpc, method, params, id}` (the `jsonrpc`
field is never inspected). -/
structure Req where
  method : String
  params : Json
  id : Json

/-- Whole-process mutable state touched by one request: the two maps, the
durable store and the three counters. -/
structure St where
  cache : Cache
  dbs : SMap DbRow
  dedup : Dedup
  httpReqCnt : Nat
  httpUpstreamResCnt : Nat
  httpCacheResCnt : Nat

/-- What the handler sends to the client: a rebuilt envelope from cache, the
upstream body verbatim, or a 500 carrying the caught error. -/
inductive Sent where
  | fromCache : RpcResp → Sent
  | fromUpstream : Json → Sent
  | failure : JsErr → Sent

/-- The `app.post("/")` handler of `handleHttpConnection` (DB-variant lines
171–218) for a single request, as a pure state transformer.  `now` is
`Date.now()` at the duplicate check, `tSet` at the detector update (after any
delay), `tGet` at the cache lookup, `tWrite` at the cache write; `r` is the
`Math.random()` draw; `upstream` is the resolved outcome of
`upstreamHttpRequest` (`.error` = the promise rejected after exhausting
retries).  Returns the new state, what was sent, and the preamble event
trace. -/
def handleRpcPost (dbActive : Bool) (cacheMaxAge : Nat)
    (jsonParse : String → Option Json) (st : St) (req : Req)
    (now tSet tGet tWrite : Int) (r : ℚ) (upstream : Except JsErr Json) :
    St × Sent × List Ev :=
  let cacheKey := getCacheKey req.method req.params
  let (dedup', evs) := dedupStep st.dedup cacheKey now tSet r
  let maxAge := cacheMaxAgeMs req.method cacheMaxAge
  let (cachedResponse, cache') :=
    getResponseFromCache dbActive jsonParse st.dbs st.cache cacheKey maxAge req.id tGet
  match cachedResponse with
  | some resp =>
    ({ st with cache := cache', dedup := dedup',
               httpCacheResCnt := st.httpCacheResCnt + 1,
               httpReqCnt := st.httpReqCnt + 1 },
     Sent.fromCache resp, evs)
  | none =>
    match upstream with
    | .ok data =>
      let (dbs', cache'') :=
        match shouldWriteCache req.method req.params with
        | .ok true =>
          match jsGetField data "result" with
          | .ok v => writeResponseToCache dbActive st.dbs cache' cacheKey v tWrite
          | .error _ => (st.dbs, cache')
        | _ => (st.dbs, cache')
      ({ st with cache := cache'', dbs := dbs', dedup := dedup',
                 httpUpstreamResCnt := st.httpUpstreamResCnt + 1,
                 httpReqCnt := st.httpReqCnt + 1 },
       Sent.fromUpstream data, evs)
    | .error err =>
      ({ st with cache := cache', dedup := dedup',
                 httpReqCnt := st.httpReqCnt + 1 },
       Sent.failure err, evs)

/-- An upstream that rejects every single attempt with an HTTP error
response. -/
def failEveryTime : Nat → Outcome := fun _ => Outcome.failure (UpErr.response "upstream 429")

/-- Scenario request for the conditionally-immutable case: `eth_call` whose
params array contains an object with a `blockHash` key. -/
def c3req : Req :=
  ⟨"eth_call", Json.arr [Json.obj [("blockHash", Json.str "0xabc")]], Json.num 1⟩

/-- First upstream response body of the scenario. -/
def c3data : Json :=
  Json.obj [("jsonrpc", Json.str "2.0"), ("id", Json.num 1), ("result", Json.str "0xbeef")]

/-- Second upstream response body of the scenario (distinguishable from the
first). -/
def c3data2 : Json :=
  Json.obj [("jsonrpc", Json.str "2.0"), ("id", Json.num 1), ("result", Json.str "0xcafe")]

/-- Pristine process state: empty maps, zero counters. -/
def c3st0 : St := ⟨[], [], [], 0, 0, 0⟩

/-- State after the first `eth_call` of the scenario (handled at time 0,
upstream answered `c3data`, result written to cache). -/
def c3st1 : St :=
  (handleRpcPost false 10 (fun _ => none) c3st0 c3req 0 0 0 0 0 (.ok c3data)).1

/-- Hex digit value of a character, inverse to `hexCh` (proof infrastructure
for the serializer's injectivity; 99 marks a non-hex character). -/
def hexVal : Char → Nat
  | '0' => 0 | '1' => 1 | '2' => 2 | '3' => 3 | '4' => 4
  | '5' => 5 | '6' => 6 | '7' => 7 | '8' => 8 | '9' => 9
  | 'a' => 10 | 'b' => 11 | 'c' => 12 | 'd' => 13 | 'e' => 14 | 'f' => 15
  | _ => 99

/-- Code point encoded by a two-character escape `\e` (proof
infrastructure). -/
def unescShort : Char → Option Nat
  | '"' => some 34
  | '\\' => some 92
  | 'b' => some 8
  | 't' => some 9
  | 'n' => some 10
  | 'f' => some 12
  | 'r' => some 13
  | _ => none

/-- Decoder for one escaped character of a JSON string body (proof
infrastructure): returns the code point and the remaining input, `none` at a
closing quote or on garbage.  Left inverse of `escChar` (see
`decodeOne_esc`). -/
def decodeOne : List Char → Option (Nat × List Char)
  | [] => none
  | c :: t =>
    if c = '"' then none
    else if c = '\\' then
      match t with
      | 'u' :: a :: b :: x :: y :: t' =>
        if a = '0' ∧ b = '0' then some (16 * hexVal x + hexVal y, t') else none
      | e :: t' => (unescShort e).map fun n => (n, t')
      | [] => none
    else some (c.toNat, t)

/-- A character list that is empty or starts with one of the three
serializer separators (comma, closing bracket, closing brace): the possible
suffixes following a serialized JSON value inside a larger serialization. -/
def SepHead (t : List Char) : Prop :=
  ∀ c t', t = c :: t' → c = ',' ∨ c = ']' ∨ c = '\x7d'

/-- Constructor tag of a JSON value (proof infrastructure; `true` and `false`
are distinguished because they serialize differently). -/
def ctorTag : Json → Nat
  | .null => 0
  | .bool _ => 1
  | .num _ => 3
  | .str _ => 4
  | .arr _ => 5
  | .obj _ => 6

/-- Tag recoverable from the first character of a serialization (proof
infrastructure): 7 for characters that can never start one. -/
def headTag (c : Char) : Nat :=
  if c = 'n' then 0
  else if c = 't' then 1
  else if c = 'f' then 1
  else if c = '"' then 4
  else if c = '[' then 5
  else if c = '\x7b' then 6
  else if c = '-' ∨ c.isDigit then 3
  else 7

theorem aget_aset_self {β : Type} (m : SMap β) (k : String) (v : β) :
    aget (aset m k v) k = some v := by
  induction m with
  | nil => simp [aset, aget]
  | cons p t ih =>
    by_cases h : p.1 = k
    · simp [aset, h, aget]
    · simp [aset, h, aget, ih]

theorem aget_aset_ne {β : Type} (m : SMap β) (k k' : String) (v : β)
    (h : k' ≠ k) : aget (aset m k v) k' = aget m k' := by
  have hk : ¬ k = k' := fun hh => h hh.symm
  induction m with
  | nil => simp [aset, aget, hk]
  | cons p t ih =>
    by_cases hp : p.1 = k
    · have hp' : ¬ p.1 = k' := by rw [hp]; exact hk
      simp [aset, hp, aget, hk, hp']
    · simp [aset, hp, aget, ih]

/-- Claim C1 (code bug): on exhaustion `upstreamHttpRequest` executes
`throw Error(forwardErr)`, but the identifier written there is `forwardErr`
while the variable carrying the last observed failure is `forwardedErr`, so
the caller receives a ReferenceError about the undeclared identifier instead
of the last observed failure — contradicting the code's own comment "if
giving up, hand over the last error" and its doc comment "throws on permanent
failure".  Evaluated here at an input where all eleven attempts fail with a
serializable HTTP error response. -/
theorem upstreamExhaustion_throws_referenceError_not_last_failure :
    (upstreamHttpRequest failEveryTime 0 10 2000).2
        = .error (.referenceError "forwardErr is not defined")
    ∧ (upstreamHttpRequest failEveryTime 0 10 2000).2
        ≠ .error (.errorObj (forwardedErrOf (UpErr.response "upstream 429"))) := by
  have h : (upstreamHttpRequest failEveryTime 0 10 2000).2
      = .error (.referenceError "forwardErr is not defined") := rfl
  refine ⟨h, ?_⟩
  rw [h]
  intro hEq
  injection hEq with h2
  exact JsErr.noConfusion h2

theorem upstream_allFail (attempts : Nat → Outcome) :
    ∀ (nr i : Nat) (t : Int),
      (∀ k, k ≤ nr → ∃ e, attempts (i + k) = Outcome.failure e) →
      upstreamHttpRequest attempts i nr t
          = ((List.range nr).map fun k => t * 2 ^ k,
             .error (.referenceError "forwardErr is not defined"))
      ∧ upstreamAttempts attempts i nr = nr + 1 := by
  intro nr
  induction nr with
  | zero =>
    intro i t h
    obtain ⟨e, he⟩ := h 0 (by omega)
    rw [Nat.add_zero] at he
    constructor
    · simp [upstreamHttpRequest, he]
    · simp [upstreamAttempts, he]
  | succ n ih =>
    intro i t h
    obtain ⟨e, he⟩ := h 0 (by omega)
    rw [Nat.add_zero] at he
    have hrest := ih (i + 1) (t * 2) (by
      intro k hk
      obtain ⟨e', he'⟩ := h (k + 1) (by omega)
      exact ⟨e', by rw [show i + 1 + k = i + (k + 1) by omega]; exact he'⟩)
    constructor
    · show upstreamHttpRequest attempts i (n + 1) t = _
      rw [upstreamHttpRequest, he]
      simp only [hrest.1]
      simp only [Prod.mk.injEq, and_true]
      show t :: (List.range n).map (fun k => t * 2 * 2 ^ k)
          = (List.range (n + 1)).map fun k => t * 2 ^ k
      rw [List.range_succ_eq_map]
      simp only [List.map_cons, List.map_map, pow_zero, mul_one]
      congr 1
      refine List.map_congr_left fun k _ => ?_
      simp only [Function.comp_apply, Nat.succ_eq_add_one, pow_succ]
      ring
    · rw [upstreamAttempts, he]
      simp only [hrest.2]
      omega

/-- Claim C2 (corrected): with every attempt failing, `upstreamHttpRequest`
at its defaults (`nrRetries = 10`, `initialTimeoutMs = 2000`) performs eleven
`axios.post` attempts in total — one initial call plus ten retries, not "at
most 10 attempts" — where the k-th retry (k = 1..10) is preceded by a sleep of
`2000 * 2 ^ (k-1)` ms (2000, 4000, 8000, … doubling each time), and the caller
receives the terminal failure only after all eleven attempts. -/
theorem upstreamRetry_eleven_attempts_doubling_backoff
    (attempts : Nat → Outcome)
    (h : ∀ k, k ≤ 10 → ∃ e, attempts k = Outcome.failure e) :
    upstreamHttpRequest attempts 0 10 2000
        = ([2000, 4000, 8000, 16000, 32000, 64000, 128000, 256000, 512000, 1024000],
           .error (.referenceError "forwardErr is not defined"))
    ∧ upstreamAttempts attempts 0 10 = 11 := by
  have := upstream_allFail attempts 10 0 2000 (by intro k hk; simpa using h k hk)
  refine ⟨?_, this.2⟩
  rw [this.1]
  rfl

/-- Claim C2, witness: the general theorem applied to the everywhere-failing
upstream. -/
theorem upstreamRetry_eleven_attempts_doubling_backoff_w :
    (∀ k, k ≤ 10 → ∃ e, failEveryTime k = Outcome.failure e)
    ∧ (upstreamHttpRequest failEveryTime 0 10 2000
        = ([2000, 4000, 8000, 16000, 32000, 64000, 128000, 256000, 512000, 1024000],
           .error (.referenceError "forwardErr is not defined"))
       ∧ upstreamAttempts failEveryTime 0 10 = 11) :=
  ⟨fun _ _ => ⟨UpErr.response "upstream 429", rfl⟩,
   upstreamRetry_eleven_attempts_doubling_backoff failEveryTime
     (fun _ _ => ⟨UpErr.response "upstream 429", rfl⟩)⟩

/-- Claim C2, counterexample to the claim as stated: with every attempt
failing, the default call performs eleven attempts, which is not "at most 10
attempts in total". -/
theorem upstreamRetry_attempts_exceed_ten :
    upstreamAttempts failEveryTime 0 10 = 11
    ∧ ¬ upstreamAttempts failEveryTime 0 10 ≤ 10 := by
  refine ⟨rfl, ?_⟩
  intro hle
  rw [show upstreamAttempts failEveryTime 0 10 = 11 from rfl] at hle
  omega

/-- Claim C4 (corrected): when a request is recognized as a potential
duplicate, the delay is `await`ed FIRST and only then is the detector record
updated — `duplicateDetector.set(cacheKey, Date.now())` runs after the
suspension, storing the post-delay time `tSet`.  Duplicates arriving during
the delay therefore still observe the previous `lastSeenAt`, not a pending
timestamp. -/
theorem dedup_record_updated_after_delay (dd : Dedup) (key : String)
    (prev now tSet : Int) (r : ℚ)
    (hprev : aget dd key = some prev) (hrecent : now - prev < 1000) :
    (dedupStep dd key now tSet r).2
        = [Ev.delay (duplicateDelayMs r), Ev.dedupSet tSet]
    ∧ aget (dedupStep dd key now tSet r).1 key = some tSet := by
  unfold dedupStep
  rw [hprev]
  constructor
  · simp [hrecent]
  · simp [aget_aset_self]

/-- Claim C4, witness: a concrete duplicate (previous sighting at 0, request
at 500) runs through the theorem. -/
theorem dedup_record_updated_after_delay_w :
    (aget ([("k", 0)] : Dedup) "k" = some 0 ∧ (500 : Int) - 0 < 1000)
    ∧ ((dedupStep [("k", 0)] "k" 500 900 0).2
        = [Ev.delay (duplicateDelayMs 0), Ev.dedupSet 900]
       ∧ aget (dedupStep [("k", 0)] "k" 500 900 0).1 "k" = some 900) :=
  ⟨⟨rfl, by decide⟩,
   dedup_record_updated_after_delay [("k", 0)] "k" 0 500 900 0 rfl (by decide)⟩

/-- Claim C4, counterexample: in a concrete duplicate run the very first
event is the delay, so it is false that every delay is preceded by a
detector-record update. -/
theorem dedup_delay_precedes_record_update :
    ((dedupStep [("k", 0)] "k" 500 900 0).2).get? 0
        = some (Ev.delay (duplicateDelayMs 0))
    ∧ ¬ (∀ j d, ((dedupStep [("k", 0)] "k" 500 900 0).2).get? j
            = some (Ev.delay d) →
          ∃ i t, i < j
            ∧ ((dedupStep [("k", 0)] "k" 500 900 0).2).get? i
                = some (Ev.dedupSet t)) := by
  constructor
  · rfl
  · intro h
    obtain ⟨i, t, hi, _⟩ := h 0 (duplicateDelayMs 0) rfl
    omega

/-- Claim C7 (confirmed): a request is delayed exactly when a duplicate
record exists for its key and is younger than the 1000 ms trigger threshold;
the delay then lies in [500, 1500) ms (`500 + floor(r * 1000)` for a
`Math.random()` draw `r` in [0, 1)); in every other case the delay is 0. -/
theorem duplicate_delay_iff_recent_record (dd : Dedup) (key : String)
    (now : Int) (r : ℚ) (h0 : 0 ≤ r) (h1 : r < 1) :
    (∀ prev, aget dd key = some prev → now - prev < 1000 →
        500 ≤ dedupDelay dd key now r ∧ dedupDelay dd key now r < 1500)
    ∧ (∀ prev, aget dd key = some prev → ¬ now - prev < 1000 →
        dedupDelay dd key now r = 0)
    ∧ (aget dd key = none → dedupDelay dd key now r = 0) := by
  have hfl0 : (0 : Int) ≤ ⌊r * 1000⌋ := by
    apply Int.floor_nonneg.mpr
    positivity
  have hfl1 : ⌊r * 1000⌋ < 1000 := by
    rw [Int.floor_lt]
    push_cast
    nlinarith
  refine ⟨?_, ?_, ?_⟩
  · intro prev hprev hrecent
    simp only [dedupDelay, duplicateDelayMs, hprev, if_pos hrecent]
    omega
  · intro prev hprev hstale
    simp only [dedupDelay, hprev, if_neg hstale]
  · intro hnone
    simp only [dedupDelay, hnone]

/-- Claim C7, witness: concrete record seen 400 ms ago with a median random
draw. -/
theorem duplicate_delay_iff_recent_record_w :
    ((0 : ℚ) ≤ 1 / 2 ∧ (1 / 2 : ℚ) < 1)
    ∧ (aget ([("k", 100)] : Dedup) "k" = some 100 ∧ (500 : Int) - 100 < 1000)
    ∧ (500 ≤ dedupDelay [("k", 100)] "k" 500 (1 / 2)
       ∧ dedupDelay [("k", 100)] "k" 500 (1 / 2) < 1500) :=
  ⟨⟨by norm_num, by norm_num⟩, ⟨rfl, by decide⟩,
   (duplicate_delay_iff_recent_record [("k", 100)] "k" 500 (1 / 2)
      (by norm_num) (by norm_num)).1 100 rfl (by decide)⟩

theorem grc_absent (jp : String → Option Json) (dbs : SMap DbRow) (c : Cache)
    (key : String) (maxAgeMs : MaxAge) (reqId : Json) (now : Int)
    (hnone : aget c key = none) :
    getResponseFromCache false jp dbs c key maxAgeMs reqId now = (none, c) := by
  simp [getResponseFromCache, hnone]

theorem grc_stale (jp : String → Option Json) (dbs : SMap DbRow) (c : Cache)
    (key : String) (maxAgeMs : MaxAge) (reqId : Json) (now : Int) (e : Entry)
    (he : aget c key = some e) (hf : ageOk (now - e.ts) maxAgeMs = false) :
    getResponseFromCache false jp dbs c key maxAgeMs reqId now = (none, c) := by
  simp [getResponseFromCache, he, hf]

theorem grc_fresh_snd (jp : String → Option Json) (dbs : SMap DbRow) (c : Cache)
    (key : String) (maxAgeMs : MaxAge) (reqId : Json) (now : Int) (e : Entry)
    (he : aget c key = some e) (hf : ageOk (now - e.ts) maxAgeMs = true) :
    (getResponseFromCache false jp dbs c key maxAgeMs reqId now).2
      = aset c key ⟨e.val, e.ts, e.readCnt + 1, e.writeCnt⟩ := by
  rcases hv : e.val with _ | v
  · simp [getResponseFromCache, he, hf, hv]
  · cases v <;> simp [getResponseFromCache, he, hf, hv]

theorem grc_fresh_undef (jp : String → Option Json) (dbs : SMap DbRow) (c : Cache)
    (key : String) (maxAgeMs : MaxAge) (reqId : Json) (now : Int) (e : Entry)
    (he : aget c key = some e) (hf : ageOk (now - e.ts) maxAgeMs = true)
    (hv : e.val = none) :
    (getResponseFromCache false jp dbs c key maxAgeMs reqId now).1 = none := by
  simp [getResponseFromCache, he, hf, hv]

theorem grc_fresh_null (jp : String → Option Json) (dbs : SMap DbRow) (c : Cache)
    (key : String) (maxAgeMs : MaxAge) (reqId : Json) (now : Int) (e : Entry)
    (he : aget c key = some e) (hf : ageOk (now - e.ts) maxAgeMs = true)
    (hv : e.val = some Json.null) :
    (getResponseFromCache false jp dbs c key maxAgeMs reqId now).1 = none := by
  simp [getResponseFromCache, he, hf, hv]

theorem grc_fresh_val (jp : String → Option Json) (dbs : SMap DbRow) (c : Cache)
    (key : String) (maxAgeMs : MaxAge) (reqId : Json) (now : Int) (e : Entry)
    (v : Json) (he : aget c key = some e) (hf : ageOk (now - e.ts) maxAgeMs = true)
    (hv : e.val = some v) (hnn : v ≠ Json.null) :
    (getResponseFromCache false jp dbs c key maxAgeMs reqId now).1
      = some ⟨"2.0", reqId, v⟩ := by
  cases v
  · exact absurd rfl hnn
  all_goals simp [getResponseFromCache, he, hf, hv]

/-- Claim C5 (amended): in the DB-capable variant, a stored value of `null`
(or JS `undefined`) is never served as a cache hit by `getResponseFromCache`,
in either backing mode, so the next call for that key still goes to upstream;
the app.js variant of the same function lacks this guard (see the
counterexample). -/
theorem null_cached_value_never_served (dbActive : Bool)
    (jp : String → Option Json) (dbs : SMap DbRow) (c : Cache) (key : String)
    (maxAgeMs : MaxAge) (reqId : Json) (now : Int) (e : Entry)
    (he : aget c key = some e)
    (hnull : e.val = none ∨ e.val = some Json.null) :
    (getResponseFromCache dbActive jp dbs c key maxAgeMs reqId now).1 = none := by
  rcases hnull with h | h <;>
    cases hf : ageOk (now - e.ts) maxAgeMs <;>
    simp [getResponseFromCache, he, h, hf]

/-- Claim C5, witness: a concrete fresh `null` entry is not served. -/
theorem null_cached_value_never_served_w :
    (aget ([("k", ⟨some Json.null, 0, 0, 1⟩)] : Cache) "k"
        = some ⟨some Json.null, 0, 0, 1⟩
     ∧ ((⟨some Json.null, 0, 0, 1⟩ : Entry).val = none
        ∨ (⟨some Json.null, 0, 0, 1⟩ : Entry).val = some Json.null))
    ∧ (getResponseFromCache false (fun _ => none) []
        [("k", ⟨some Json.null, 0, 0, 1⟩)] "k" MaxAge.inf (Json.num 1) 100).1
        = none :=
  ⟨⟨rfl, Or.inr rfl⟩,
   null_cached_value_never_served false (fun _ => none) []
     [("k", ⟨some Json.null, 0, 0, 1⟩)] "k" MaxAge.inf (Json.num 1) 100
     ⟨some Json.null, 0, 0, 1⟩ rfl (Or.inr rfl)⟩

/-- Claim C5, counterexample to the claim over the whole repository: the
app.js variant of `getResponseFromCache` wraps a present, fresh entry into a
response envelope without any null check, so a cached `null` result IS served
as a cache hit there. -/
theorem appjs_serves_cached_null :
    (AppJs.getResponseFromCache [("k", ⟨some Json.null, 0, 0, 1⟩)] "k"
        (MaxAge.fin 10000) (Json.num 1) 500).1
      = some ⟨"2.0", Json.num 1, some Json.null⟩ := rfl

/-- Claim C6 (corrected): for the in-memory backing, a cached entry is served
iff it exists, passes the freshness test `now - writtenAt <= maxAgeMs`
(trivially satisfied by `Infinity`), AND holds a non-`null`, non-`undefined`
value — the claimed existence+freshness biconditional misses the value
condition.  The TTL half of the claim holds: for the volatile method
`eth_blockNumber` with `CACHE_MAX_AGE = 1` the max age is 1000 ms, an entry
that is 2000 ms old at lookup time is not served, and a request whose lookup
misses is forwarded upstream by the handler. -/
theorem cache_served_iff_fresh_nonnull (jp : String → Option Json)
    (dbs : SMap DbRow) (c : Cache) (key : String) (maxAgeMs : MaxAge)
    (reqId : Json) (now : Int) :
    ((getResponseFromCache false jp dbs c key maxAgeMs reqId now).1.isSome = true
      ↔ ∃ e v, aget c key = some e ∧ ageOk (now - e.ts) maxAgeMs = true
          ∧ e.val = some v ∧ v ≠ Json.null)
    ∧ cacheMaxAgeMs "eth_blockNumber" 1 = MaxAge.fin 1000
    ∧ (∀ e, aget c key = some e → now - e.ts = 2000 →
        (getResponseFromCache false jp dbs c key (cacheMaxAgeMs "eth_blockNumber" 1)
            reqId now).1 = none)
    ∧ (∀ (st : St) (req : Req) (cacheMaxAge : Nat) (tSet tWrite : Int) (r : ℚ)
          (data : Json),
        (getResponseFromCache false jp st.dbs st.cache
            (getCacheKey req.method req.params)
            (cacheMaxAgeMs req.method cacheMaxAge) req.id now).1 = none →
        (handleRpcPost false cacheMaxAge jp st req tSet tSet now tWrite r
            (.ok data)).2.1 = Sent.fromUpstream data
        ∧ (handleRpcPost false cacheMaxAge jp st req tSet tSet now tWrite r
            (.ok data)).1.httpUpstreamResCnt = st.httpUpstreamResCnt + 1) := by
  refine ⟨?_, rfl, ?_, ?_⟩
  · constructor
    · intro hsome
      rcases hc : aget c key with _ | e
      · rw [grc_absent jp dbs c key maxAgeMs reqId now hc] at hsome
        simp at hsome
      · cases hf : ageOk (now - e.ts) maxAgeMs
        · rw [grc_stale jp dbs c key maxAgeMs reqId now e hc hf] at hsome
          simp at hsome
        · rcases hv : e.val with _ | v
          · rw [grc_fresh_undef jp dbs c key maxAgeMs reqId now e hc hf hv] at hsome
            simp at hsome
          · by_cases hnn : v = Json.null
            · rw [hnn] at hv
              rw [grc_fresh_null jp dbs c key maxAgeMs reqId now e hc hf hv] at hsome
              simp at hsome
            · exact ⟨e, v, hc ▸ rfl, hf, hv, hnn⟩
    · rintro ⟨e, v, hc, hf, hv, hnn⟩
      rw [grc_fresh_val jp dbs c key maxAgeMs reqId now e v hc hf hv hnn]
      rfl
  · intro e he hage
    have hf : ageOk (now - e.ts) (cacheMaxAgeMs "eth_blockNumber" 1) = false := by
      rw [hage]
      decide
    exact congrArg Prod.fst (grc_stale jp dbs c key _ reqId now e he hf)
  · intro st req cacheMaxAge tSet tWrite r data hmiss
    constructor <;> simp only [handleRpcPost, hmiss]

/-- Claim C6, witness: a fresh non-null entry written at 0 and looked up at
2000 with the 1000 ms TTL of `CACHE_MAX_AGE = 1` misses the cache. -/
theorem cache_served_iff_fresh_nonnull_w :
    (aget ([("k", ⟨some (Json.str "0x10"), 0, 0, 1⟩)] : Cache) "k"
        = some ⟨some (Json.str "0x10"), 0, 0, 1⟩
     ∧ (2000 : Int) - (⟨some (Json.str "0x10"), 0, 0, 1⟩ : Entry).ts = 2000)
    ∧ (getResponseFromCache false (fun _ => none) []
        [("k", ⟨some (Json.str "0x10"), 0, 0, 1⟩)] "k"
        (cacheMaxAgeMs "eth_blockNumber" 1) (Json.num 1) 2000).1 = none :=
  ⟨⟨rfl, by decide⟩,
   (cache_served_iff_fresh_nonnull (fun _ => none) []
      [("k", ⟨some (Json.str "0x10"), 0, 0, 1⟩)] "k" MaxAge.inf (Json.num 1)
      2000).2.2.1 ⟨some (Json.str "0x10"), 0, 0, 1⟩ rfl (by decide)⟩

/-- Claim C6, counterexample to the biconditional as stated: a fresh `null`
entry exists and passes the freshness test, yet is not served. -/
theorem fresh_null_entry_not_served :
    (aget ([("k", ⟨some Json.null, 0, 0, 1⟩)] : Cache) "k").isSome = true
    ∧ ageOk ((100 : Int) - 0) MaxAge.inf = true
    ∧ (getResponseFromCache false (fun _ => none) []
        [("k", ⟨some Json.null, 0, 0, 1⟩)] "k" MaxAge.inf (Json.num 1) 100).1
        = none :=
  ⟨rfl, rfl, rfl⟩

/-- Claim C8 (amended): each write replaces the prior entry under its key —
value and `writtenAt` are overwritten, `writeCnt` is bumped by one (1 on first
write), `readCnt` carried over — leaving other keys untouched; `writtenAt` is
monotonically non-decreasing per key provided the clock is; and `readCnt` is
incremented exactly when a present, FRESH entry is found by
`getResponseFromCache` — that is on every served cache hit but also when the
fresh value is `null`/`undefined` and no hit is served (the increment at line
98 precedes the null check, see the counterexample), and never on a miss. -/
theorem cache_write_read_counter_semantics (jp : String → Option Json)
    (dbs : SMap DbRow) (c : Cache) (key : String) (maxAgeMs : MaxAge)
    (reqId : Json) (now : Int) (val : Option Json) :
    (aget c key = none →
      aget (writeResponseToCache false dbs c key val now).2 key
        = some ⟨val, now, 0, 1⟩)
    ∧ (∀ e, aget c key = some e →
      aget (writeResponseToCache false dbs c key val now).2 key
        = some ⟨val, now, e.readCnt, e.writeCnt + 1⟩)
    ∧ (∀ k', k' ≠ key →
      aget (writeResponseToCache false dbs c key val now).2 k' = aget c k')
    ∧ (∀ e, aget c key = some e → e.ts ≤ now →
        ∀ e', aget (writeResponseToCache false dbs c key val now).2 key = some e' →
          e.ts ≤ e'.ts)
    ∧ (∀ e, aget c key = some e → ageOk (now - e.ts) maxAgeMs = true →
        (getResponseFromCache false jp dbs c key maxAgeMs reqId now).2
          = aset c key ⟨e.val, e.ts, e.readCnt + 1, e.writeCnt⟩)
    ∧ (∀ e, aget c key = some e → ageOk (now - e.ts) maxAgeMs = false →
        (getResponseFromCache false jp dbs c key maxAgeMs reqId now).2 = c)
    ∧ (aget c key = none →
        (getResponseFromCache false jp dbs c key maxAgeMs reqId now).2 = c) := by
  refine ⟨?_, ?_, ?_, ?_, ?_, ?_, ?_⟩
  · intro hnone
    simp [writeResponseToCache, hnone, aget_aset_self]
  · intro e he
    simp [writeResponseToCache, he, aget_aset_self]
  · intro k' hk
    simp only [writeResponseToCache, if_neg Bool.false_ne_true]
    exact aget_aset_ne c key k' _ hk
  · intro e he hle e' he'
    simp [writeResponseToCache, he, aget_aset_self] at he'
    rw [← he']
    exact hle
  · intro e he hf
    exact grc_fresh_snd jp dbs c key maxAgeMs reqId now e he hf
  · intro e he hf
    exact congrArg Prod.snd (grc_stale jp dbs c key maxAgeMs reqId now e he hf)
  · intro hnone
    exact congrArg Prod.snd (grc_absent jp dbs c key maxAgeMs reqId now hnone)

/-- Claim C8, witness: overwriting a concrete entry bumps `writeCnt` from 2
to 3 and stamps the new time. -/
theorem cache_write_read_counter_semantics_w :
    aget ([("k", ⟨some (Json.str "a"), 5, 3, 2⟩)] : Cache) "k"
        = some ⟨some (Json.str "a"), 5, 3, 2⟩
    ∧ aget (writeResponseToCache false [] [("k", ⟨some (Json.str "a"), 5, 3, 2⟩)]
        "k" (some (Json.str "b")) 9).2 "k"
        = some ⟨some (Json.str "b"), 9, 3, 3⟩ :=
  ⟨rfl,
   (cache_write_read_counter_semantics (fun _ => none) []
      [("k", ⟨some (Json.str "a"), 5, 3, 2⟩)] "k" MaxAge.inf (Json.num 1) 9
      (some (Json.str "b"))).2.1 ⟨some (Json.str "a"), 5, 3, 2⟩ rfl⟩

/-- Claim C8, counterexample to "readCount increments only on a served cache
hit": looking up a fresh entry whose stored value is `null` serves no hit, yet
bumps `readCnt` from 0 to 1. -/
theorem readCnt_bumped_without_served_hit :
    (getResponseFromCache false (fun _ => none) []
        [("k", ⟨some Json.null, 0, 0, 1⟩)] "k" MaxAge.inf (Json.num 1) 100).1
        = none
    ∧ aget (getResponseFromCache false (fun _ => none) []
        [("k", ⟨some Json.null, 0, 0, 1⟩)] "k" MaxAge.inf (Json.num 1) 100).2 "k"
        = some ⟨some Json.null, 0, 1, 1⟩ :=
  ⟨rfl, rfl⟩

/-- Claim C10 (confirmed): with the durable backing active,
`writeResponseToCache` writes only the durable store — the in-memory map is
returned untouched — and for any key absent from the in-memory map
`getResponseFromCache` yields a miss no matter what the durable store holds:
when a row does come back, the freshness check reads
`cache.get(key).ts` on the missing in-memory entry, the TypeError is caught,
and the read is treated as a miss — so no value is ever served from the
durable backing. -/
theorem db_mode_write_only_db_and_never_serves (jp : String → Option Json)
    (dbs : SMap DbRow) (c : Cache) (key : String) (maxAgeMs : MaxAge)
    (reqId : Json) (now : Int) (val : Option Json) :
    (writeResponseToCache true dbs c key val now).2 = c
    ∧ (writeResponseToCache true dbs c key val now).1
        = aset dbs key ⟨val.map stringify, now⟩
    ∧ (aget c key = none →
        getResponseFromCache true jp dbs c key maxAgeMs reqId now = (none, c))
    ∧ (aget c key = none → ∀ row, aget dbs key = some row →
        dbTryBlock jp dbs c key maxAgeMs now
          = .error "TypeError: cannot read property ts of undefined") := by
  refine ⟨rfl, rfl, ?_, ?_⟩
  · intro hnone
    rcases hrow : aget dbs key with _ | row <;>
      simp [getResponseFromCache, hnone, dbTryBlock, hrow]
  · intro hnone row hrow
    simp [dbTryBlock, hrow, hnone]

/-- Claim C10, witness: a fresh durable row under "k" with an empty in-memory
map — the lookup still misses and the inner block raises the TypeError. -/
theorem db_mode_write_only_db_and_never_serves_w :
    (aget ([] : Cache) "k" = none
     ∧ aget ([("k", ⟨some "\"0x1\"", 7⟩)] : SMap DbRow) "k" = some ⟨some "\"0x1\"", 7⟩)
    ∧ (getResponseFromCache true (fun _ => none) [("k", ⟨some "\"0x1\"", 7⟩)]
          [] "k" MaxAge.inf (Json.num 1) 8 = (none, [])
       ∧ dbTryBlock (fun _ => none) [("k", ⟨some "\"0x1\"", 7⟩)] [] "k"
          MaxAge.inf 8
          = .error "TypeError: cannot read property ts of undefined") :=
  ⟨⟨rfl, rfl⟩,
   ⟨(db_mode_write_only_db_and_never_serves (fun _ => none)
       [("k", ⟨some "\"0x1\"", 7⟩)] [] "k" MaxAge.inf (Json.num 1) 8
       none).2.2.1 rfl,
    (db_mode_write_only_db_and_never_serves (fun _ => none)
       [("k", ⟨some "\"0x1\"", 7⟩)] [] "k" MaxAge.inf (Json.num 1) 8
       none).2.2.2 rfl ⟨some "\"0x1\"", 7⟩ rfl⟩⟩

/-- Claim C3 (corrected): `eth_call` with a `blockHash` parameter is WRITTEN
to the cache (the write predicate recognizes it), but its cache lookup uses
the finite volatile TTL `CACHE_MAX_AGE * 1000` — not an infinite max age,
which line 189 grants only to `eth_chainId`, `net_version` and
`eth_getTransactionReceipt` — so a second identical call is a cache hit only
within the TTL (shown at 5000 ms with the default `CACHE_MAX_AGE = 10`) and
goes back upstream after it (shown at 20001 ms).  Receipt-style calls are
never written to the cache by this variant at all, so "cached only when
non-null" holds vacuously for them. -/
theorem ethCall_blockHash_cached_with_finite_ttl :
    (∀ cacheMaxAge : Nat,
      cacheMaxAgeMs "eth_call" cacheMaxAge = MaxAge.fin (cacheMaxAge * 1000))
    ∧ cacheMaxAgeMs "eth_chainId" 10 = MaxAge.inf
    ∧ cacheMaxAgeMs "net_version" 10 = MaxAge.inf
    ∧ cacheMaxAgeMs "eth_getTransactionReceipt" 10 = MaxAge.inf
    ∧ shouldWriteCache "eth_call" c3req.params = .ok true
    ∧ (∀ params, shouldWriteCache "eth_getTransactionReceipt" params = .ok false)
    ∧ (handleRpcPost false 10 (fun _ => none) c3st0 c3req 0 0 0 0 0
        (.ok c3data)).2.1 = Sent.fromUpstream c3data
    ∧ aget c3st1.cache (getCacheKey c3req.method c3req.params)
        = some ⟨some (Json.str "0xbeef"), 0, 0, 1⟩
    ∧ (handleRpcPost false 10 (fun _ => none) c3st1 c3req 5000 5000 5000 5000 0
        (.ok c3data2)).2.1 = Sent.fromCache ⟨"2.0", Json.num 1, Json.str "0xbeef"⟩
    ∧ (handleRpcPost false 10 (fun _ => none) c3st1 c3req 20001 20001 20001 20001 0
        (.ok c3data2)).2.1 = Sent.fromUpstream c3data2 :=
  ⟨fun _ => rfl, rfl, rfl, rfl, rfl, fun _ => rfl, rfl, rfl, rfl, rfl⟩

/-- Claim C3, counterexample: the lookup max age for `eth_call` is the finite
10000 ms (not `Infinity`), and the second identical `eth_call` issued 20001 ms
after the write is answered from upstream — not a cache hit "regardless of
elapsed time". -/
theorem ethCall_blockHash_not_infinite_maxAge :
    cacheMaxAgeMs "eth_call" 10 = MaxAge.fin 10000
    ∧ cacheMaxAgeMs "eth_call" 10 ≠ MaxAge.inf
    ∧ (handleRpcPost false 10 (fun _ => none) c3st1 c3req 20001 20001 20001 20001 0
        (.ok c3data2)).2.1 = Sent.fromUpstream c3data2
    ∧ ¬ ∃ resp, (handleRpcPost false 10 (fun _ => none) c3st1 c3req
        20001 20001 20001 20001 0 (.ok c3data2)).2.1 = Sent.fromCache resp := by
  refine ⟨rfl, by decide, rfl, ?_⟩
  rintro ⟨resp, h⟩
  rw [show (handleRpcPost false 10 (fun _ => none) c3st1 c3req
      20001 20001 20001 20001 0 (.ok c3data2)).2.1 = Sent.fromUpstream c3data2
      from rfl] at h
  exact Sent.noConfusion h

theorem char_toNat_inj {a b : Char} (h : a.toNat = b.toNat) : a = b := by
  have := congrArg Char.ofNat h
  rwa [Char.ofNat_toNat, Char.ofNat_toNat] at this

theorem hexVal_hexCh {m : Nat} (h : m < 16) : hexVal (hexCh m) = m := by
  interval_cases m <;> rfl

theorem digCh_isDigit {d : Nat} (h : d < 10) : (digCh d).isDigit = true := by
  interval_cases d <;> rfl

theorem digCh_inj {d e : Nat} (hd : d < 10) (he : e < 10)
    (h : digCh d = digCh e) : d = e := by
  revert h
  interval_cases d <;> interval_cases e <;> decide

theorem natRepr_all_digits (n : Nat) : ∀ c ∈ natRepr n, c.isDigit = true := by
  intro c hc
  unfold natRepr at hc
  by_cases hn : n = 0
  · simp [hn] at hc
    rw [hc]
    rfl
  · rw [if_neg hn] at hc
    unfold natChars at hc
    rw [List.mem_reverse, List.mem_map] at hc
    obtain ⟨d, hmem, rfl⟩ := hc
    exact digCh_isDigit (Nat.digits_lt_base (by norm_num) hmem)

theorem natRepr_ne_nil (n : Nat) : natRepr n ≠ [] := by
  unfold natRepr
  by_cases hn : n = 0
  · simp [hn]
  · rw [if_neg hn]
    unfold natChars
    simp only [ne_eq, List.reverse_eq_nil_iff, List.map_eq_nil_iff]
    exact Nat.digits_ne_nil_iff_ne_zero.mpr hn

theorem mapDigCh_inj : ∀ (l1 l2 : List Nat), (∀ d ∈ l1, d < 10) →
    (∀ d ∈ l2, d < 10) → l1.map digCh = l2.map digCh → l1 = l2 := by
  intro l1
  induction l1 with
  | nil => intro l2 _ _ h; cases l2 <;> simp_all
  | cons d t ih =>
    intro l2 h1 h2 h
    cases l2 with
    | nil => simp_all
    | cons e u =>
      simp only [List.map_cons, List.cons.injEq] at h
      have hde := digCh_inj (h1 d (by simp)) (h2 e (by simp)) h.1
      have := ih u (fun x hx => h1 x (by simp [hx])) (fun x hx => h2 x (by simp [hx])) h.2
      simp [hde, this]

theorem natRepr_inj {n m : Nat} (h : natRepr n = natRepr m) : n = m := by
  have key : ∀ k, k ≠ 0 → natChars k ≠ ['0'] := by
    intro k hk hEq
    unfold natChars at hEq
    have h1 : (Nat.digits 10 k).map digCh = ['0'] := by
      have := congrArg List.reverse hEq
      simpa using this
    have h2 : ∃ d, Nat.digits 10 k = [d] ∧ digCh d = '0' := by
      rcases hd : Nat.digits 10 k with _ | ⟨d, ds⟩
      · rw [hd] at h1; simp at h1
      · rw [hd] at h1
        simp only [List.map_cons, List.cons.injEq] at h1
        rcases ds with _ | ⟨d', ds'⟩
        · exact ⟨d, rfl, h1.1⟩
        · simp at h1
    obtain ⟨d, hds, hd0⟩ := h2
    have hdlt : d < 10 := Nat.digits_lt_base (by norm_num) (by rw [hds]; simp)
    have : d = 0 := digCh_inj hdlt (by norm_num) hd0
    subst this
    have := Nat.ofDigits_digits 10 k
    rw [hds] at this
    simp [Nat.ofDigits] at this
    exact hk this.symm
  unfold natRepr at h
  by_cases hn : n = 0 <;> by_cases hm : m = 0
  · rw [hn, hm]
  · rw [if_pos hn, if_neg hm] at h
    exact absurd h.symm (key m hm)
  · rw [if_neg hn, if_pos hm] at h
    exact absurd h (key n hn)
  · rw [if_neg hn, if_neg hm] at h
    unfold natChars at h
    have := congrArg List.reverse h
    simp only [List.reverse_reverse] at this
    have hd := mapDigCh_inj _ _
      (fun d hd => Nat.digits_lt_base (by norm_num) hd)
      (fun d hd => Nat.digits_lt_base (by norm_num) hd) this
    exact Nat.digits_inj_iff.mp hd

theorem take_append_le {α : Type} : ∀ (n : Nat) (l r : List α),
    n ≤ l.length → (l ++ r).take n = l.take n := by
  intro n l
  induction l generalizing n with
  | nil => intro r h; simp at h; simp [h]
  | cons a t ih =>
    intro r h
    cases n with
    | zero => simp
    | succ m =>
      simp only [List.cons_append, List.take_succ_cons, List.cons.injEq, true_and]
      exact ih m r (by simpa using h)

theorem append_inj_of_forall {P : Char → Prop} :
    ∀ (l1 l2 r s : List Char), (∀ c ∈ l1, P c) → (∀ c ∈ l2, P c) →
      (∀ c t', r = c :: t' → ¬ P c) → (∀ c t', s = c :: t' → ¬ P c) →
      l1 ++ r = l2 ++ s → l1 = l2 ∧ r = s := by
  intro l1
  induction l1 with
  | nil =>
    intro l2 r s _ h2 hr _ heq
    cases l2 with
    | nil => exact ⟨rfl, heq⟩
    | cons c t =>
      simp only [List.nil_append, List.cons_append] at heq
      exact absurd (h2 c (by simp)) (hr c (t ++ s) heq)
  | cons c t ih =>
    intro l2 r s h1 h2 hr hs heq
    cases l2 with
    | nil =>
      simp only [List.cons_append, List.nil_append] at heq
      exact absurd (h1 c (by simp)) (hs c (t ++ r) heq.symm)
    | cons c' t' =>
      simp only [List.cons_append, List.cons.injEq] at heq
      obtain ⟨rfl, heq2⟩ := heq
      obtain ⟨ht, hrs⟩ := ih t' r s (fun x hx => h1 x (by simp [hx]))
        (fun x hx => h2 x (by simp [hx])) hr hs heq2
      exact ⟨by rw [ht], hrs⟩

theorem intRepr_pd {a b : Int} {r s : List Char}
    (hr : ∀ c t', r = c :: t' → c.isDigit = false)
    (hs : ∀ c t', s = c :: t' → c.isDigit = false)
    (heq : intRepr a ++ r = intRepr b ++ s) : a = b ∧ r = s := by
  have hr' : ∀ c t', r = c :: t' → ¬ c.isDigit = true := by
    intro c t' hc
    simp [hr c t' hc]
  have hs' : ∀ c t', s = c :: t' → ¬ c.isDigit = true := by
    intro c t' hc
    simp [hs c t' hc]
  have headDigit : ∀ (m : Nat) (x : List Char), natRepr m ++ x = r → False := by
    intro m x hx
    obtain ⟨c, t, hct⟩ : ∃ c t, natRepr m = c :: t := by
      rcases h : natRepr m with _ | ⟨c, t⟩
      · exact absurd h (natRepr_ne_nil _)
      · exact ⟨c, t, rfl⟩
    rw [hct] at hx
    exact hr' c (t ++ x) hx.symm (natRepr_all_digits m c (by rw [hct]; simp))
  unfold intRepr at heq
  by_cases ha : a < 0 <;> by_cases hb : b < 0
  · rw [if_pos ha, if_pos hb] at heq
    simp only [List.cons_append, List.cons.injEq, true_and] at heq
    obtain ⟨hn, hrs⟩ := append_inj_of_forall _ _ _ _ (natRepr_all_digits _)
      (natRepr_all_digits _) hr' hs' heq
    have := natRepr_inj hn
    exact ⟨by omega, hrs⟩
  · exfalso
    rw [if_pos ha, if_neg hb] at heq
    obtain ⟨c, t, hct⟩ : ∃ c t, natRepr b.toNat = c :: t := by
      rcases h : natRepr b.toNat with _ | ⟨c, t⟩
      · exact absurd h (natRepr_ne_nil _)
      · exact ⟨c, t, rfl⟩
    rw [hct] at heq
    simp only [List.cons_append, List.cons.injEq] at heq
    have hdig : c.isDigit = true := natRepr_all_digits _ c (by rw [hct]; simp)
    rw [← heq.1] at hdig
    exact absurd hdig (by decide)
  · exfalso
    rw [if_neg ha, if_pos hb] at heq
    obtain ⟨c, t, hct⟩ : ∃ c t, natRepr a.toNat = c :: t := by
      rcases h : natRepr a.toNat with _ | ⟨c, t⟩
      · exact absurd h (natRepr_ne_nil _)
      · exact ⟨c, t, rfl⟩
    rw [hct] at heq
    simp only [List.cons_append, List.cons.injEq] at heq
    have hdig : c.isDigit = true := natRepr_all_digits _ c (by rw [hct]; simp)
    rw [heq.1] at hdig
    exact absurd hdig (by decide)
  · rw [if_neg ha, if_neg hb] at heq
    obtain ⟨hn, hrs⟩ := append_inj_of_forall _ _ _ _ (natRepr_all_digits _)
      (natRepr_all_digits _) hr' hs' heq
    have := natRepr_inj hn
    exact ⟨by omega, hrs⟩

theorem decodeOne_esc (c : Char) (t : List Char) :
    decodeOne (escChar c ++ t) = some (c.toNat, t) := by
  by_cases h1 : c = '"'
  · subst h1; rfl
  · by_cases h2 : c = '\\'
    · subst h2; rfl
    · by_cases h3 : c.toNat < 32
      · by_cases h8 : c.toNat = 8
        · rw [show escChar c = ['\\', 'b'] by simp [escChar, h1, h2, h3, h8], h8]
          rfl
        · by_cases h9 : c.toNat = 9
          · rw [show escChar c = ['\\', 't'] by simp [escChar, h1, h2, h3, h8, h9], h9]
            rfl
          · by_cases h10 : c.toNat = 10
            · rw [show escChar c = ['\\', 'n'] by
                simp [escChar, h1, h2, h3, h8, h9, h10], h10]
              rfl
            · by_cases h12 : c.toNat = 12
              · rw [show escChar c = ['\\', 'f'] by
                  simp [escChar, h1, h2, h3, h8, h9, h10, h12], h12]
                rfl
              · by_cases h13 : c.toNat = 13
                · rw [show escChar c = ['\\', 'r'] by
                    simp [escChar, h1, h2, h3, h8, h9, h10, h12, h13], h13]
                  rfl
                · rw [show escChar c
                      = ['\\', 'u', '0', '0', hexCh (c.toNat / 16), hexCh (c.toNat % 16)] by
                    simp [escChar, h1, h2, h3, h8, h9, h10, h12, h13]]
                  show decodeOne ('\\' :: 'u' :: '0' :: '0'
                      :: hexCh (c.toNat / 16) :: hexCh (c.toNat % 16) :: t) = _
                  simp only [decodeOne, reduceIte, and_self]
                  rw [hexVal_hexCh (by omega), hexVal_hexCh (by omega)]
                  rw [show 16 * (c.toNat / 16) + c.toNat % 16 = c.toNat by omega]
                  simp
      · rw [show escChar c = [c] by simp [escChar, h1, h2, h3]]
        show decodeOne (c :: t) = _
        simp [decodeOne, h1, h2]

theorem escList_inj : ∀ (l1 l2 r s : List Char),
    escList l1 ++ '"' :: r = escList l2 ++ '"' :: s → l1 = l2 ∧ r = s := by
  intro l1
  induction l1 with
  | nil =>
    intro l2 r s heq
    cases l2 with
    | nil => simpa using heq
    | cons c t =>
      exfalso
      simp only [escList, List.nil_append, List.append_assoc] at heq
      have h1 := congrArg decodeOne heq
      rw [decodeOne_esc] at h1
      simp [decodeOne] at h1
  | cons c t ih =>
    intro l2 r s heq
    cases l2 with
    | nil =>
      exfalso
      simp only [escList, List.nil_append, List.append_assoc] at heq
      have h1 := congrArg decodeOne heq
      rw [decodeOne_esc] at h1
      simp [decodeOne] at h1
    | cons c' t' =>
      simp only [escList, List.append_assoc] at heq
      have h1 := congrArg decodeOne heq
      rw [decodeOne_esc, decodeOne_esc] at h1
      simp only [Option.some.injEq, Prod.mk.injEq] at h1
      obtain ⟨hcc, htt⟩ := h1
      have hc := char_toNat_inj hcc
      obtain ⟨ht2, hrs⟩ := ih t' r s htt
      exact ⟨by rw [hc, ht2], hrs⟩

theorem ctorTag_le (v : Json) : ctorTag v ≤ 6 := by
  rcases v with _ | b | n | s | xs | fs
  · decide
  · show (1 : Nat) ≤ 6; decide
  · show (3 : Nat) ≤ 6; decide
  · show (4 : Nat) ≤ 6; decide
  · show (5 : Nat) ≤ 6; decide
  · show (6 : Nat) ≤ 6; decide

theorem headTag_digit {c : Char} (hd : c.isDigit = true) : headTag c = 3 := by
  have hn : ¬ c = 'n' := by rintro rfl; exact absurd hd (by decide)
  have ht : ¬ c = 't' := by rintro rfl; exact absurd hd (by decide)
  have hf : ¬ c = 'f' := by rintro rfl; exact absurd hd (by decide)
  have hq : ¬ c = '"' := by rintro rfl; exact absurd hd (by decide)
  have hb : ¬ c = '[' := by rintro rfl; exact absurd hd (by decide)
  have hc : ¬ c = '\x7b' := by rintro rfl; exact absurd hd (by decide)
  unfold headTag
  rw [if_neg hn, if_neg ht, if_neg hf, if_neg hq, if_neg hb, if_neg hc,
    if_pos (Or.inr hd)]

theorem strL_head (v : Json) : ∃ c t, strL v = c :: t ∧ headTag c = ctorTag v := by
  rcases v with _ | b | n | s | xs | fs
  · exact ⟨'n', _, rfl, by decide⟩
  · rcases b with _ | _
    · exact ⟨'f', _, rfl, rfl⟩
    · exact ⟨'t', _, rfl, rfl⟩
  · show ∃ c t, intRepr n = c :: t ∧ headTag c = 3
    unfold intRepr
    by_cases hn : n < 0
    · exact ⟨'-', _, by rw [if_pos hn], by decide⟩
    · rw [if_neg hn]
      obtain ⟨c, t, hct⟩ : ∃ c t, natRepr n.toNat = c :: t := by
        rcases h : natRepr n.toNat with _ | ⟨c, t⟩
        · exact absurd h (natRepr_ne_nil _)
        · exact ⟨c, t, rfl⟩
      exact ⟨c, t, hct,
        headTag_digit (natRepr_all_digits _ c (by rw [hct]; simp))⟩
  · exact ⟨'"', _, rfl, rfl⟩
  · exact ⟨'[', _, rfl, rfl⟩
  · exact ⟨'\x7b', _, rfl, rfl⟩

theorem strL_head_not_sep (v : Json) :
    ∀ c t, strL v = c :: t → ¬ (c = ',' ∨ c = ']' ∨ c = '\x7d') := by
  intro c t hct hsep
  obtain ⟨c', t', hct', htag⟩ := strL_head v
  rw [hct] at hct'
  obtain ⟨rfl, -⟩ : c = c' ∧ t = t' := by
    constructor <;> [exact (List.cons.injEq .. ▸ hct').1;
      exact (List.cons.injEq .. ▸ hct').2]
  have h6 := ctorTag_le v
  rw [← htag] at h6
  rcases hsep with rfl | rfl | rfl <;> simp [headTag] at h6

theorem sepHead_cons_sep {c : Char} (h : c = ',' ∨ c = ']' ∨ c = '\x7d')
    (r : List Char) : SepHead (c :: r) := by
  intro c' t' h'
  injection h' with h1 h2
  rw [← h1]
  exact h

theorem sepHead_nil : SepHead [] := by
  intro c t' h
  exact absurd h (by simp)

theorem strLList_pd : ∀ (xs ys : List Json) (r s : List Char),
    (∀ x ∈ xs, ∀ (w : Json) (r' s' : List Char), SepHead r' → SepHead s' →
      strL x ++ r' = strL w ++ s' → x = w ∧ r' = s') →
    strLList xs ++ ']' :: r = strLList ys ++ ']' :: s → xs = ys ∧ r = s := by
  intro xs
  induction xs with
  | nil =>
    intro ys r s _ heq
    cases ys with
    | nil =>
      simp only [strLList, List.nil_append, List.cons.injEq] at heq
      exact ⟨rfl, heq.2⟩
    | cons y u =>
      exfalso
      obtain ⟨cy, ty, hy, -⟩ := strL_head y
      have hhead : ']' = cy := by
        cases u with
        | nil =>
          simp only [strLList, List.nil_append] at heq
          rw [hy] at heq
          injection heq with h1 h2
        | cons z u' =>
          simp only [strLList, List.nil_append, List.cons_append,
            List.append_assoc] at heq
          rw [hy] at heq
          injection heq with h1 h2
      exact strL_head_not_sep y cy ty hy (Or.inr (Or.inl hhead.symm))
  | cons x t ih =>
    intro ys r s hel heq
    cases ys with
    | nil =>
      exfalso
      obtain ⟨cx, tx, hx, -⟩ := strL_head x
      have hhead : cx = ']' := by
        cases t with
        | nil =>
          simp only [strLList, List.nil_append] at heq
          rw [hx] at heq
          injection heq with h1 h2
        | cons z u' =>
          simp only [strLList, List.nil_append, List.cons_append,
            List.append_assoc] at heq
          rw [hx] at heq
          injection heq with h1 h2
      exact strL_head_not_sep x cx tx hx (Or.inr (Or.inl hhead))
    | cons y u =>
      have hx := hel x (by simp)
      cases t with
      | nil =>
        cases u with
        | nil =>
          simp only [strLList] at heq
          obtain ⟨hxy, hR⟩ := hx y (']' :: r) (']' :: s)
            (sepHead_cons_sep (Or.inr (Or.inl rfl)) r)
            (sepHead_cons_sep (Or.inr (Or.inl rfl)) s) heq
          injection hR with h1 h2
          exact ⟨by rw [hxy], h2⟩
        | cons z u' =>
          exfalso
          simp only [strLList, List.cons_append, List.append_assoc] at heq
          obtain ⟨-, hR⟩ := hx y _ _
            (sepHead_cons_sep (Or.inr (Or.inl rfl)) r)
            (sepHead_cons_sep (Or.inl rfl) _) heq
          injection hR with h1 h2
          exact absurd h1 (by decide)
      | cons w t' =>
        cases u with
        | nil =>
          exfalso
          simp only [strLList, List.cons_append, List.append_assoc] at heq
          obtain ⟨-, hR⟩ := hx y _ _
            (sepHead_cons_sep (Or.inl rfl) _)
            (sepHead_cons_sep (Or.inr (Or.inl rfl)) s) heq
          injection hR with h1 h2
          exact absurd h1 (by decide)
        | cons z u' =>
          simp only [strLList, List.cons_append, List.append_assoc] at heq
          obtain ⟨hxy, hR⟩ := hx y _ _
            (sepHead_cons_sep (Or.inl rfl) _)
            (sepHead_cons_sep (Or.inl rfl) _) heq
          injection hR with h1 h2
          obtain ⟨ht, hrs⟩ := ih (z :: u') r s
            (fun a ha => hel a (by simp [ha])) h2
          exact ⟨by rw [hxy, ht], hrs⟩

theorem strLField_pd (k : String) (v : Json)
    (IHv : ∀ (w : Json) (r' s' : List Char), SepHead r' → SepHead s' →
      strL v ++ r' = strL w ++ s' → v = w ∧ r' = s') :
    ∀ (g : String × Json) (r s : List Char), SepHead r → SepHead s →
      strLField (k, v) ++ r = strLField g ++ s → (k, v) = g ∧ r = s := by
  rintro ⟨k2, v2⟩ r s hr hs heq
  simp only [strLField, List.cons_append, List.append_assoc,
    List.cons.injEq, true_and] at heq
  obtain ⟨hk, hrest⟩ := escList_inj _ _ _ _ heq
  injection hrest with h1 hrest2
  obtain ⟨hv, hrs⟩ := IHv v2 _ _ hr hs hrest2
  exact ⟨by rw [show k = k2 from String.ext hk, hv], hrs⟩

theorem strLField_starts_quote (f : String × Json) :
    ∃ t, strLField f = '"' :: t := by
  rcases f with ⟨k, v⟩
  exact ⟨_, rfl⟩

theorem strLFields_pd : ∀ (fs gs : List (String × Json)) (r s : List Char),
    (∀ f ∈ fs, ∀ (w : Json) (r' s' : List Char), SepHead r' → SepHead s' →
      strL f.2 ++ r' = strL w ++ s' → f.2 = w ∧ r' = s') →
    strLFields fs ++ '\x7d' :: r = strLFields gs ++ '\x7d' :: s →
    fs = gs ∧ r = s := by
  intro fs
  induction fs with
  | nil =>
    intro gs r s _ heq
    cases gs with
    | nil =>
      simp only [strLFields, List.nil_append, List.cons.injEq] at heq
      exact ⟨rfl, heq.2⟩
    | cons g u =>
      exfalso
      obtain ⟨tg, hg⟩ := strLField_starts_quote g
      have hhead : '\x7d' = '"' := by
        cases u with
        | nil =>
          simp only [strLFields, List.nil_append] at heq
          rw [hg] at heq
          injection heq with h1 h2
        | cons g2 u' =>
          simp only [strLFields, List.nil_append, List.cons_append,
            List.append_assoc] at heq
          rw [hg] at heq
          injection heq with h1 h2
      exact absurd hhead (by decide)
  | cons f t ih =>
    intro gs r s hel heq
    cases gs with
    | nil =>
      exfalso
      obtain ⟨tf, hf⟩ := strLField_starts_quote f
      have hhead : '"' = '\x7d' := by
        cases t with
        | nil =>
          simp only [strLFields, List.nil_append] at heq
          rw [hf] at heq
          injection heq with h1 h2
        | cons f2 t' =>
          simp only [strLFields, List.nil_append, List.cons_append,
            List.append_assoc] at heq
          rw [hf] at heq
          injection heq with h1 h2
      exact absurd hhead (by decide)
    | cons g u =>
      obtain ⟨kf, vf⟩ := f
      have hfpd := strLField_pd kf vf (hel (kf, vf) (by simp))
      cases t with
      | nil =>
        cases u with
        | nil =>
          simp only [strLFields] at heq
          obtain ⟨hfg, hR⟩ := hfpd g ('\x7d' :: r) ('\x7d' :: s)
            (sepHead_cons_sep (Or.inr (Or.inr rfl)) r)
            (sepHead_cons_sep (Or.inr (Or.inr rfl)) s) heq
          injection hR with h1 h2
          exact ⟨by rw [hfg], h2⟩
        | cons g2 u' =>
          exfalso
          simp only [strLFields, List.cons_append, List.append_assoc] at heq
          obtain ⟨-, hR⟩ := hfpd g _ _
            (sepHead_cons_sep (Or.inr (Or.inr rfl)) r)
            (sepHead_cons_sep (Or.inl rfl) _) heq
          injection hR with h1 h2
          exact absurd h1 (by decide)
      | cons f2 t' =>
        cases u with
        | nil =>
          exfalso
          simp only [strLFields, List.cons_append, List.append_assoc] at heq
          obtain ⟨-, hR⟩ := hfpd g _ _
            (sepHead_cons_sep (Or.inl rfl) _)
            (sepHead_cons_sep (Or.inr (Or.inr rfl)) s) heq
          injection hR with h1 h2
          exact absurd h1 (by decide)
        | cons g2 u' =>
          simp only [strLFields, List.cons_append, List.append_assoc] at heq
          obtain ⟨hfg, hR⟩ := hfpd g _ _
            (sepHead_cons_sep (Or.inl rfl) _)
            (sepHead_cons_sep (Or.inl rfl) _) heq
          injection hR with h1 h2
          obtain ⟨ht, hrs⟩ := ih (g2 :: u') r s
            (fun a ha => hel a (by simp [ha])) h2
          exact ⟨by rw [hfg, ht], hrs⟩

theorem strL_pd_aux : ∀ (N : Nat) (v w : Json) (r s : List Char),
    sizeOf v < N → SepHead r → SepHead s →
    strL v ++ r = strL w ++ s → v = w ∧ r = s := by
  intro N
  induction N using Nat.strong_induction_on with
  | _ N IH =>
    intro v w r s hN hr hs heq
    have htag : ctorTag v = ctorTag w := by
      obtain ⟨cv, tv, hv, htv⟩ := strL_head v
      obtain ⟨cw, tw, hw, htw⟩ := strL_head w
      have heq2 := heq
      rw [hv, hw] at heq2
      simp only [List.cons_append] at heq2
      injection heq2 with h1 h2
      rw [← htv, ← htw, h1]
    rcases v with _ | bv | nv | sv | av | ov <;>
      rcases w with _ | bw | nw | sw | aw | ow <;>
      try { exfalso; revert htag; simp [ctorTag] }
    case null.null =>
      exact ⟨rfl, by simpa [strL] using heq⟩
    case bool.bool =>
      rcases bv with _ | _ <;> rcases bw with _ | _
      · exact ⟨rfl, by simpa [strL] using heq⟩
      · exfalso; simp [strL] at heq
      · exfalso; simp [strL] at heq
      · exact ⟨rfl, by simpa [strL] using heq⟩
    case num.num =>
      have hrd : ∀ c t', r = c :: t' → c.isDigit = false := by
        intro c t' hc
        rcases hr c t' hc with rfl | rfl | rfl <;> decide
      have hsd : ∀ c t', s = c :: t' → c.isDigit = false := by
        intro c t' hc
        rcases hs c t' hc with rfl | rfl | rfl <;> decide
      simp only [strL] at heq
      obtain ⟨h1, h2⟩ := intRepr_pd hrd hsd heq
      exact ⟨by rw [h1], h2⟩
    case str.str =>
      simp only [strL, List.cons_append, List.append_assoc,
        List.singleton_append, List.cons.injEq, true_and] at heq
      obtain ⟨hd, hrs⟩ := escList_inj _ _ _ _ heq
      exact ⟨by rw [String.ext hd], hrs⟩
    case arr.arr =>
      simp only [strL, List.cons_append, List.append_assoc,
        List.singleton_append, List.cons.injEq, true_and] at heq
      have hel : ∀ x ∈ av, ∀ (w' : Json) (r' s' : List Char),
          SepHead r' → SepHead s' → strL x ++ r' = strL w' ++ s' →
          x = w' ∧ r' = s' := by
        intro x hx w' r' s' hr' hs' heq'
        have hx1 : sizeOf x < sizeOf (Json.arr av) := by
          have := List.sizeOf_lt_of_mem hx
          simp only [Json.arr.sizeOf_spec]
          omega
        exact IH (sizeOf (Json.arr av)) hN x w' r' s' hx1 hr' hs' heq'
      obtain ⟨hxy, hrs⟩ := strLList_pd av aw r s hel heq
      exact ⟨by rw [hxy], hrs⟩
    case obj.obj =>
      simp only [strL, List.cons_append, List.append_assoc,
        List.singleton_append, List.cons.injEq, true_and] at heq
      have hel : ∀ f ∈ ov, ∀ (w' : Json) (r' s' : List Char),
          SepHead r' → SepHead s' → strL f.2 ++ r' = strL w' ++ s' →
          f.2 = w' ∧ r' = s' := by
        intro f hf w' r' s' hr' hs' heq'
        have hx1 : sizeOf f.2 < sizeOf (Json.obj ov) := by
          have h1 := List.sizeOf_lt_of_mem hf
          rcases f with ⟨fk, fv⟩
          simp only [Json.obj.sizeOf_spec]
          simp only [Prod.mk.sizeOf_spec] at h1
          omega
        exact IH (sizeOf (Json.obj ov)) hN f.2 w' r' s' hx1 hr' hs' heq'
      obtain ⟨hfg, hrs⟩ := strLFields_pd ov ow r s hel heq
      exact ⟨by rw [hfg], hrs⟩

theorem strL_pd (v w : Json) (r s : List Char) (hr : SepHead r) (hs : SepHead s)
    (heq : strL v ++ r = strL w ++ s) : v = w ∧ r = s :=
  strL_pd_aux (sizeOf v + 1) v w r s (by omega) hr hs heq

theorem stringify_inj {v w : Json} (h : stringify v = stringify w) : v = w := by
  have hdata : strL v = strL w := congrArg String.data h
  exact (strL_pd v w [] [] sepHead_nil sepHead_nil (by simp [hdata])).1

theorem cacheable_method {m : String} {p : Json}
    (h : shouldWriteCache m p = .ok true) :
    m = "eth_chainId" ∨ m = "eth_blockNumber" ∨ m = "net_version"
      ∨ m = "eth_call" := by
  unfold shouldWriteCache at h
  by_cases h1 : m ∈ ["eth_chainId", "eth_blockNumber", "net_version"]
  · simp only [List.mem_cons, List.mem_singleton] at h1
    tauto
  · rw [if_neg h1] at h
    by_cases h2 : m = "eth_call"
    · tauto
    · rw [if_neg h2] at h
      exact absurd h (by simp)

theorem getCacheKey_method_ne {m1 m2 : String} (p1 p2 : Json)
    (hl1 : 6 ≤ m1.data.length) (hl2 : 6 ≤ m2.data.length)
    (hne : m1.data.take 6 ≠ m2.data.take 6) :
    getCacheKey m1 p1 ≠ getCacheKey m2 p2 := by
  intro h
  have hd : m1.data ++ strL p1 = m2.data ++ strL p2 := congrArg String.data h
  have := congrArg (List.take 6) hd
  rw [take_append_le 6 _ _ hl1, take_append_le 6 _ _ hl2] at this
  exact hne this

/-- Claim C9 (corrected): `getCacheKey` concatenates the method name with the
insertion-order-sensitive `JSON.stringify` of the params, so two cacheable
calls get the same key exactly when their methods are equal and their params
are equal as order-sensitive JSON values.  In particular distinct cacheable
calls always get distinct keys (the modelled serializer is injective), but
params that are merely structurally equal up to object key order do NOT map to
the same key (see the counterexample) — the claimed stability across equal
parameter structures fails. -/
theorem cacheKey_injective_on_cacheable_calls (m1 m2 : String) (p1 p2 : Json)
    (h1 : shouldWriteCache m1 p1 = .ok true)
    (h2 : shouldWriteCache m2 p2 = .ok true) :
    getCacheKey m1 p1 = getCacheKey m2 p2 ↔ (m1 = m2 ∧ p1 = p2) := by
  constructor
  · intro hk
    have hm1 := cacheable_method h1
    have hm2 := cacheable_method h2
    have hmm : m1 = m2 := by
      rcases hm1 with rfl | rfl | rfl | rfl <;> rcases hm2 with rfl | rfl | rfl | rfl <;>
        first
          | rfl
          | exact absurd hk
              (getCacheKey_method_ne p1 p2 (by decide) (by decide) (by decide))
    subst hmm
    refine ⟨rfl, ?_⟩
    have hd : m1.data ++ strL p1 = m1.data ++ strL p2 := congrArg String.data hk
    have hstr : strL p1 = strL p2 := List.append_cancel_left hd
    exact (strL_pd p1 p2 [] [] sepHead_nil sepHead_nil (by simp [hstr])).1
  · rintro ⟨rfl, rfl⟩
    rfl

/-- Claim C9, witness: two concrete distinct cacheable calls, both sides of
the biconditional false. -/
theorem cacheKey_injective_on_cacheable_calls_w :
    (shouldWriteCache "eth_chainId" (Json.arr []) = .ok true
     ∧ shouldWriteCache "eth_call"
        (Json.arr [Json.obj [("blockHash", Json.str "0xabc")]]) = .ok true)
    ∧ (getCacheKey "eth_chainId" (Json.arr [])
        = getCacheKey "eth_call"
            (Json.arr [Json.obj [("blockHash", Json.str "0xabc")]])
       ↔ ("eth_chainId" = "eth_call"
          ∧ Json.arr []
              = Json.arr [Json.obj [("blockHash", Json.str "0xabc")]])) :=
  ⟨⟨rfl, rfl⟩, cacheKey_injective_on_cacheable_calls _ _ _ _ rfl rfl⟩

/-- Claim C9, counterexample to key-order-independent stability: the same
`eth_call` params object written with its two fields in swapped order — equal
as JSON values (the field lists are permutations of each other) — produces a
different cache key, so the cache treats the two structurally-equal calls as
unrelated. -/
theorem cacheKey_key_order_sensitive :
    List.Perm [("b", Json.str "2"), ("a", Json.str "1")]
      [("a", Json.str "1"), ("b", Json.str "2")]
    ∧ getCacheKey "eth_call"
        (Json.arr [Json.obj [("a", Json.str "1"), ("b", Json.str "2")]])
      ≠ getCacheKey "eth_call"
        (Json.arr [Json.obj [("b", Json.str "2"), ("a", Json.str "1")]]) := by
  constructor
  · exact List.Perm.swap ("a", Json.str "1") ("b", Json.str "2") []
  · decide
